import Mathlib

/-!
Verification of the xwax timecode decoder core (src/timecoder.c) against its
natural-language specification.

The development is a shallow embedding: machine integers (`bits_t`, `unsigned
int`) become `Nat` with explicit masking, `signed int` becomes `Int`, the C
`float` quantities of the analogue front end (DC estimates, filter
coefficients, signal level, peaks) are modelled as exact rationals `ℚ`, and
the process-wide lookup array becomes an explicit function `Nat → Int`
threaded through the operations.
-/

/-! ### Bit counting (the loop body of `lfsr` in timecoder.c)

`lfsr` counts the set bits of `code & taps` by repeated shifting.  We embed
the loop with an explicit fuel argument (the loop variable halves each
iteration, so `fuel = n` always suffices); this keeps the definition
structurally recursive and hence kernel-reducible. -/

def popcountFuel : Nat → Nat → Nat
  | 0, _ => 0
  | fuel + 1, n => if n = 0 then 0 else n % 2 + popcountFuel fuel (n / 2)

def popcount (n : Nat) : Nat := popcountFuel n n

theorem popcountFuel_zero_arg : ∀ fuel, popcountFuel fuel 0 = 0
  | 0 => rfl
  | _ + 1 => rfl

theorem popcountFuel_congr : ∀ f g n : Nat, n ≤ f → n ≤ g →
    popcountFuel f n = popcountFuel g n := by
  intro f
  induction f with
  | zero =>
    intro g n hf _
    have hn : n = 0 := Nat.le_zero.mp hf
    subst hn
    rw [popcountFuel_zero_arg, popcountFuel_zero_arg]
  | succ f ih =>
    intro g n hf hg
    by_cases hn : n = 0
    · subst hn; rw [popcountFuel_zero_arg, popcountFuel_zero_arg]
    · have hgpos : 0 < g := Nat.lt_of_lt_of_le (Nat.pos_of_ne_zero hn) hg
      obtain ⟨g', rfl⟩ : ∃ g', g = g' + 1 :=
        ⟨g - 1, by omega⟩
      show (if n = 0 then 0 else n % 2 + popcountFuel f (n / 2)) =
        (if n = 0 then 0 else n % 2 + popcountFuel g' (n / 2))
      rw [if_neg hn, if_neg hn]
      have h1 : n / 2 ≤ f := by omega
      have h2 : n / 2 ≤ g' := by omega
      rw [ih g' (n / 2) h1 h2]

theorem popcount_zero : popcount 0 = 0 := rfl

theorem popcount_eq (n : Nat) (hn : n ≠ 0) :
    popcount n = n % 2 + popcount (n / 2) := by
  obtain ⟨m, rfl⟩ : ∃ m, n = m + 1 := ⟨n - 1, by omega⟩
  show (if m + 1 = 0 then 0 else (m + 1) % 2 + popcountFuel m ((m + 1) / 2)) = _
  rw [if_neg hn]
  have : popcountFuel m ((m + 1) / 2) = popcount ((m + 1) / 2) :=
    popcountFuel_congr m ((m + 1) / 2) ((m + 1) / 2) (by omega) (Nat.le_refl _)
  rw [this]

/-- Parity split along the low bit: `popcount n % 2` in terms of `n / 2`. -/
theorem par_split (n : Nat) :
    popcount n % 2 = (n % 2 + popcount (n / 2) % 2) % 2 := by
  by_cases hn : n = 0
  · subst hn; rfl
  · rw [popcount_eq n hn]; omega

theorem par_two_mul_add (a b : Nat) (hb : b ≤ 1) :
    popcount (2 * a + b) % 2 = (b + popcount a % 2) % 2 := by
  have h1 : (2 * a + b) % 2 = b := by omega
  have h2 : (2 * a + b) / 2 = a := by omega
  rw [par_split (2 * a + b), h1, h2]

theorem par_two_pow : ∀ k, popcount (2 ^ k) % 2 = 1 := by
  intro k
  induction k with
  | zero => rfl
  | succ k ih =>
    have h : (2 : Nat) ^ (k + 1) = 2 * 2 ^ k + 0 := by ring
    rw [h, par_two_mul_add (2 ^ k) 0 (by omega), ih]

/-- Parity is additive over a disjoint bitwise union. -/
theorem par_lor_of_and_eq_zero (a : Nat) : ∀ b : Nat, a &&& b = 0 →
    popcount (a ||| b) % 2 = (popcount a % 2 + popcount b % 2) % 2 := by
  induction a using Nat.strong_induction_on with
  | _ a ih =>
    intro b hab
    by_cases ha : a = 0
    · subst ha
      rw [Nat.zero_or]
      have : popcount 0 = 0 := rfl
      omega
    · have hdiv : (a / 2) &&& (b / 2) = 0 := by
        rw [← Nat.and_div_two, hab]
      have hIH : popcount (a / 2 ||| b / 2) % 2 =
          (popcount (a / 2) % 2 + popcount (b / 2) % 2) % 2 :=
        ih (a / 2) (Nat.div_lt_self (Nat.pos_of_ne_zero ha) (by omega)) (b / 2) hdiv
      have hmod : ¬(a % 2 = 1 ∧ b % 2 = 1) := by
        intro h
        have := Nat.and_mod_two_eq_one.mpr h
        rw [hab] at this
        simp at this
      have hor2 : (a ||| b) % 2 = 1 ↔ a % 2 = 1 ∨ b % 2 = 1 := Nat.or_mod_two_eq_one
      have hsplito := par_split (a ||| b)
      have hsplita := par_split a
      have hsplitb := par_split b
      rw [Nat.or_div_two] at hsplito
      rw [hIH] at hsplito
      generalize popcount (a / 2) = p at *
      generalize popcount (b / 2) = q at *
      generalize popcount (a ||| b) = r at *
      generalize popcount a = s at *
      generalize popcount b = t at *
      omega

theorem popcount_mod_two_le_one (n : Nat) : popcount n % 2 ≤ 1 := by omega

/-! ### The LFSR engine (`lfsr`, `fwd`, `rev` in timecoder.c) -/

/-- A timecode definition from the static registry (`struct timecode_def_t`).
The `lookup` pointer of the C struct is modelled separately, as a value of
type `Nat → Int` produced by the builder. -/
structure timecode_def where
  name : String
  desc : String
  resolution : Nat
  polarity : Bool
  bits : Nat
  seed : Nat
  taps : Nat
  length : Nat
  safe : Nat
  deriving DecidableEq

/-- Function `lfsr(code, taps)`: parity of the set bits of `code & taps`
(the C loop sums the bits and returns `xrs & 0x1`). -/
def lfsr (code taps : Nat) : Nat := popcount (code &&& taps) % 2

/-- Function `fwd`: one forward LFSR step.  New bits enter at the MSB. -/
def fwd (d : timecode_def) (current : Nat) : Nat :=
  (current >>> 1) ||| (lfsr current (d.taps ||| 1) <<< (d.bits - 1))

/-- Function `rev`: one reverse LFSR step.  New bits enter at the LSB. -/
def rev (d : timecode_def) (current : Nat) : Nat :=
  ((current <<< 1) &&& ((1 <<< d.bits) - 1)) |||
    lfsr current ((d.taps >>> 1) ||| (1 <<< (d.bits - 1)))

theorem lfsr_le_one (c t : Nat) : lfsr c t ≤ 1 := by
  have := popcount_mod_two_le_one (c &&& t)
  exact this

/-- Helper: a number below `2 ^ k` is bitwise disjoint from `2 ^ k`. -/
theorem and_two_pow_eq_zero_of_lt {a k : Nat} (h : a < 2 ^ k) :
    a &&& 2 ^ k = 0 := by
  apply Nat.eq_of_testBit_eq
  intro i
  rw [Nat.testBit_and, Nat.zero_testBit]
  by_cases hik : k = i
  · subst hik
    rw [Nat.testBit_lt_two_pow h]
    simp
  · rw [Nat.testBit_two_pow_of_ne hik]
    simp

theorem two_pow_and_eq_zero_of_lt {a k : Nat} (h : a < 2 ^ k) :
    2 ^ k &&& a = 0 := by
  rw [Nat.and_comm]
  exact and_two_pow_eq_zero_of_lt h

/-- The feedback parity of `fwd` split into the low bit of `x` and the
parity over the interior taps. -/
theorem lfsr_or_one (x T : Nat) :
    lfsr x (T ||| 1) = (x % 2 + popcount ((x &&& T) / 2) % 2) % 2 := by
  unfold lfsr
  have hm2 : (x &&& (T ||| 1)) % 2 = x % 2 := by
    have h1 : (x &&& (T ||| 1)) % 2 = 1 ↔ x % 2 = 1 ∧ (T ||| 1) % 2 = 1 :=
      Nat.and_mod_two_eq_one
    have h2 : (T ||| 1) % 2 = 1 := by
      have : (T ||| 1) % 2 = 1 ↔ T % 2 = 1 ∨ 1 % 2 = 1 := Nat.or_mod_two_eq_one
      omega
    omega
  have hd2 : (x &&& (T ||| 1)) / 2 = (x &&& T) / 2 := by
    rw [Nat.and_div_two, Nat.or_div_two]
    norm_num
    exact (Nat.and_div_two).symm
  rw [par_split (x &&& (T ||| 1)), hm2, hd2]

theorem popcount_two_pow_mul_par {k l : Nat} (hl : l ≤ 1) :
    popcount (2 ^ k * l) % 2 = l := by
  interval_cases l
  · simp [popcount_zero]
  · rw [Nat.mul_one]
    exact par_two_pow k

/-- Reversing undoes `fwd` on every in-range word. -/
theorem rev_fwd_eq (d : timecode_def) (x : Nat) (hw : 1 ≤ d.bits)
    (hT : d.taps < 2 ^ d.bits) (hx : x < 2 ^ d.bits) :
    rev d (fwd d x) = x := by
  set w := d.bits with hwdef
  set T := d.taps with hTdef
  have hpow : (2 : Nat) ^ w = 2 ^ (w - 1) * 2 := by
    rw [← Nat.pow_succ]
    congr 1
    omega
  have hx2 : x / 2 < 2 ^ (w - 1) := by omega
  have hT2 : T / 2 < 2 ^ (w - 1) := by omega
  set l := lfsr x (T ||| 1) with hldef
  have hl1 : l ≤ 1 := lfsr_le_one _ _
  -- the forward step, written additively
  have hy : fwd d x = 2 ^ (w - 1) * l + x / 2 := by
    unfold fwd
    rw [← hTdef, ← hwdef, ← hldef]
    rw [Nat.shiftLeft_eq, Nat.shiftRight_eq_div_pow, Nat.pow_one]
    rw [Nat.mul_add_lt_is_or hx2, Nat.mul_comm l (2 ^ (w - 1)), Nat.or_comm]
  -- the feedback tap mask of rev
  have hmaskrev : (T >>> 1) ||| (1 <<< (w - 1)) = T / 2 ||| 2 ^ (w - 1) := by
    rw [Nat.shiftRight_eq_div_pow, Nat.pow_one, Nat.one_shiftLeft]
  -- compute rev's feedback on y
  set y := fwd d x with hydef
  have hylor : y = x / 2 ||| 2 ^ (w - 1) * l := by
    rw [hy, Nat.mul_add_lt_is_or hx2, Nat.or_comm]
  have hand1 : y &&& T / 2 = (x &&& T) / 2 := by
    rw [hylor, Nat.and_distrib_right]
    have h1 : (x / 2) &&& (T / 2) = (x &&& T) / 2 := (Nat.and_div_two).symm
    have h2 : (2 ^ (w - 1) * l) &&& (T / 2) = 0 := by
      interval_cases l
      · simp
      · rw [Nat.mul_one]
        exact two_pow_and_eq_zero_of_lt hT2
    rw [h1, h2, Nat.or_zero]
  have hand2 : y &&& 2 ^ (w - 1) = 2 ^ (w - 1) * l := by
    rw [hylor, Nat.and_distrib_right]
    have h1 : (x / 2) &&& 2 ^ (w - 1) = 0 := and_two_pow_eq_zero_of_lt hx2
    have h2 : (2 ^ (w - 1) * l) &&& 2 ^ (w - 1) = 2 ^ (w - 1) * l := by
      interval_cases l
      · simp
      · rw [Nat.mul_one, Nat.and_self]
    rw [h1, h2, Nat.zero_or]
  have handT : (x &&& T) / 2 < 2 ^ (w - 1) := by
    have : x &&& T ≤ T := Nat.and_le_right
    omega
  have hl' : lfsr y ((T >>> 1) ||| (1 <<< (w - 1))) = x % 2 := by
    unfold lfsr
    rw [hmaskrev, Nat.and_or_distrib_left, hand1, hand2]
    have hdisj : ((x &&& T) / 2) &&& (2 ^ (w - 1) * l) = 0 := by
      interval_cases l
      · simp
      · rw [Nat.mul_one]
        exact and_two_pow_eq_zero_of_lt handT
    rw [par_lor_of_and_eq_zero _ _ hdisj, popcount_two_pow_mul_par hl1]
    have hlval : l = (x % 2 + popcount ((x &&& T) / 2) % 2) % 2 := by
      rw [hldef]; exact lfsr_or_one x T
    have hp := popcount_mod_two_le_one ((x &&& T) / 2)
    omega
  -- assemble rev y
  unfold rev
  rw [← hTdef, ← hwdef, hl', Nat.one_shiftLeft, Nat.shiftLeft_eq, Nat.pow_one,
    Nat.and_pow_two_sub_one_eq_mod]
  have hymod : y * 2 % 2 ^ w = 2 * (x / 2) := by
    have h2xlt : 2 * (x / 2) < 2 ^ w := by omega
    calc y * 2 % 2 ^ w = (2 ^ (w - 1) * l + x / 2) * 2 % 2 ^ w := by rw [hy]
    _ = (2 * (x / 2) + 2 ^ w * l) % 2 ^ w := by
        congr 1
        rw [hpow]
        ring
    _ = (2 * (x / 2) + l * 2 ^ w) % 2 ^ w := by rw [Nat.mul_comm (2 ^ w) l]
    _ = 2 * (x / 2) % 2 ^ w := by rw [Nat.add_mul_mod_self_right]
    _ = 2 * (x / 2) := Nat.mod_eq_of_lt h2xlt
  rw [hymod]
  have hfin : 2 * (x / 2) ||| x % 2 = x := by
    have hxm : x % 2 < 2 ^ 1 := by omega
    have := Nat.mul_add_lt_is_or hxm (x / 2)
    rw [Nat.pow_one] at this
    rw [← this]
    omega
  exact hfin

/-- Stepping forward undoes `rev` on every in-range word. -/
theorem fwd_rev_eq (d : timecode_def) (y : Nat) (hw : 1 ≤ d.bits)
    (hT : d.taps < 2 ^ d.bits) (hy : y < 2 ^ d.bits) :
    fwd d (rev d y) = y := by
  set w := d.bits with hwdef
  set T := d.taps with hTdef
  have hpow : (2 : Nat) ^ w = 2 ^ (w - 1) * 2 := by
    rw [← Nat.pow_succ]
    congr 1
    omega
  have hT2 : T / 2 < 2 ^ (w - 1) := by omega
  -- split y at its top bit
  set hb := y / 2 ^ (w - 1) with hbdef
  set r := y % 2 ^ (w - 1) with hrdef
  have hb1 : hb ≤ 1 := by
    have := (Nat.div_lt_iff_lt_mul (k := 2 ^ (w - 1)) (by positivity)
      (x := y) (y := 2)).mpr (by omega)
    omega
  have hrlt : r < 2 ^ (w - 1) := Nat.mod_lt _ (by positivity)
  have hysplit : y = 2 ^ (w - 1) * hb + r := by
    rw [hbdef, hrdef]
    exact (Nat.div_add_mod y (2 ^ (w - 1))).symm
  have hylor : y = 2 ^ (w - 1) * hb ||| r := by
    rw [hysplit]
    exact Nat.mul_add_lt_is_or hrlt hb
  have hmaskrev : (T >>> 1) ||| (1 <<< (w - 1)) = T / 2 ||| 2 ^ (w - 1) := by
    rw [Nat.shiftRight_eq_div_pow, Nat.pow_one, Nat.one_shiftLeft]
  have hand1 : y &&& T / 2 = r &&& T / 2 := by
    conv_lhs => rw [hylor]
    rw [Nat.and_distrib_right]
    have h2 : (2 ^ (w - 1) * hb) &&& (T / 2) = 0 := by
      interval_cases hb
      · simp
      · rw [Nat.mul_one]
        exact two_pow_and_eq_zero_of_lt hT2
    rw [h2, Nat.zero_or]
  have hand2 : y &&& 2 ^ (w - 1) = 2 ^ (w - 1) * hb := by
    conv_lhs => rw [hylor]
    rw [Nat.and_distrib_right]
    have h1 : r &&& 2 ^ (w - 1) = 0 := and_two_pow_eq_zero_of_lt hrlt
    have h2 : (2 ^ (w - 1) * hb) &&& 2 ^ (w - 1) = 2 ^ (w - 1) * hb := by
      interval_cases hb
      · simp
      · rw [Nat.mul_one, Nat.and_self]
    rw [h1, h2, Nat.or_zero]
  have hrT : r &&& T / 2 < 2 ^ (w - 1) := by
    have : r &&& T / 2 ≤ T / 2 := Nat.and_le_right
    omega
  set q := popcount (r &&& T / 2) % 2 with hqdef
  have hq1 : q ≤ 1 := popcount_mod_two_le_one _
  have hl' : lfsr y ((T >>> 1) ||| (1 <<< (w - 1))) = (q + hb) % 2 := by
    unfold lfsr
    rw [hmaskrev, Nat.and_or_distrib_left, hand1, hand2]
    have hdisj : (r &&& T / 2) &&& (2 ^ (w - 1) * hb) = 0 := by
      interval_cases hb
      · simp
      · rw [Nat.mul_one]
        exact and_two_pow_eq_zero_of_lt hrT
    rw [par_lor_of_and_eq_zero _ _ hdisj, popcount_two_pow_mul_par hb1, hqdef]
  -- the reverse step, written additively
  set l' := lfsr y ((T >>> 1) ||| (1 <<< (w - 1))) with hl'def
  have hl'1 : l' ≤ 1 := lfsr_le_one _ _
  have hx : rev d y = 2 * r + l' := by
    unfold rev
    rw [← hTdef, ← hwdef, ← hl'def, Nat.one_shiftLeft, Nat.shiftLeft_eq,
      Nat.pow_one, Nat.and_pow_two_sub_one_eq_mod]
    have hymod : y * 2 % 2 ^ w = 2 * r := by
      calc y * 2 % 2 ^ w = (2 ^ (w - 1) * hb + r) * 2 % 2 ^ w := by rw [← hysplit]
      _ = (2 * r + hb * 2 ^ w) % 2 ^ w := by
          congr 1
          rw [hpow]
          ring
      _ = 2 * r % 2 ^ w := by rw [Nat.add_mul_mod_self_right]
      _ = 2 * r := Nat.mod_eq_of_lt (by omega)
    rw [hymod]
    have hlm : l' < 2 ^ 1 := by omega
    have := Nat.mul_add_lt_is_or hlm r
    rw [Nat.pow_one] at this
    rw [← this]
  set x := rev d y with hxdef
  have hxdiv : x / 2 = r := by omega
  have hxmod : x % 2 = l' := by omega
  have handxT : (x &&& T) / 2 = r &&& T / 2 := by
    rw [Nat.and_div_two, hxdiv]
  have hlx : lfsr x (T ||| 1) = hb := by
    rw [lfsr_or_one, handxT, hxmod, ← hqdef]
    clear_value x l' q r hb
    omega
  unfold fwd
  rw [← hTdef, ← hwdef, hlx, Nat.shiftLeft_eq, Nat.shiftRight_eq_div_pow,
    Nat.pow_one, hxdiv]
  rw [Nat.mul_comm hb (2 ^ (w - 1)), Nat.or_comm, ← Nat.mul_add_lt_is_or hrlt hb]
  omega

/-! ### The timecode definition registry (`timecode_def[]` in timecoder.c) -/

def serato_2a : timecode_def :=
  ⟨"serato_2a", "Serato 2nd Ed., side A", 1000, true, 20, 0x59017, 0x361e4,
    712000, 707000⟩

def serato_2b : timecode_def :=
  ⟨"serato_2b", "Serato 2nd Ed., side B", 1000, true, 20, 0x8f3c6, 0x4f0d8,
    922000, 917000⟩

def serato_cd : timecode_def :=
  ⟨"serato_cd", "Serato CD", 1000, true, 20, 0x84c0c, 0x34d54, 940000, 930000⟩

def traktor_a : timecode_def :=
  ⟨"traktor_a", "Traktor Scratch, side A", 2000, true, 23, 0x134503, 0x041040,
    1500000, 1480000⟩

def traktor_b : timecode_def :=
  ⟨"traktor_b", "Traktor Scratch, side B", 2000, true, 23, 0x32066c, 0x041040,
    2110000, 2090000⟩

/-- The registry array (without its NULL-name terminator). -/
def timecode_def_list : List timecode_def :=
  [serato_2a, serato_2b, serato_cd, traktor_a, traktor_b]

theorem registry_bits_pos : ∀ d ∈ timecode_def_list, 1 ≤ d.bits := by
  decide

theorem registry_taps_lt : ∀ d ∈ timecode_def_list, d.taps < 2 ^ d.bits := by
  decide

/-- C1: for every timecode definition in the registry and every code word
`x < 2 ^ bits`, the LFSR transitions round-trip in both directions:
`rev (fwd x) = x` and `fwd (rev x) = x`. -/
theorem C1_lfsr_roundtrip (d : timecode_def) (hd : d ∈ timecode_def_list)
    (x : Nat) (hx : x < 2 ^ d.bits) :
    rev d (fwd d x) = x ∧ fwd d (rev d x) = x :=
  ⟨rev_fwd_eq d x (registry_bits_pos d hd) (registry_taps_lt d hd) hx,
   fwd_rev_eq d x (registry_bits_pos d hd) (registry_taps_lt d hd) hx⟩

/-- Witness for C1 at the `serato_2a` seed. -/
theorem C1_lfsr_roundtrip_witness :
    (serato_2a ∈ timecode_def_list ∧ 0x59017 < 2 ^ serato_2a.bits) ∧
      (rev serato_2a (fwd serato_2a 0x59017) = 0x59017 ∧
        fwd serato_2a (rev serato_2a 0x59017) = 0x59017) :=
  ⟨⟨List.Mem.head _, by decide⟩,
    C1_lfsr_roundtrip serato_2a (List.Mem.head _) 0x59017 (by decide)⟩

/-! ### The lookup table builder (`timecoder_build_lookup` in timecoder.c)

The C function allocates `2 << bits` slots of `sizeof(unsigned int)` bytes,
initialises every slot to the sentinel `-1`, then walks the LFSR from `seed`
for `length` steps, failing when it revisits a slot that is already set.
The malloc'd buffer starts with arbitrary contents, modelled by the
`garbage` parameter. -/

/-- Slot count `2 << def->bits` that the C code allocates. -/
def lookupSlots (d : timecode_def) : Nat := 2 <<< d.bits

/-- Size of `sizeof(unsigned int)` on the platforms the code targets. -/
def sizeof_signed_index : Nat := 4

/-- Bytes requested from malloc: `(2 << def->bits) * sizeof(unsigned int)`. -/
def lookupMemBytes (d : timecode_def) : Nat :=
  lookupSlots d * sizeof_signed_index

/-- The init loop `for(n = 0; n < (2 << bits); n++) lookup[n] = -1;`. -/
def initLoop : Nat → (Nat → Int) → (Nat → Int)
  | 0, t => t
  | n + 1, t => fun e => if e = n then -1 else initLoop n t e

theorem initLoop_lt : ∀ (n : Nat) (t : Nat → Int) (e : Nat), e < n →
    initLoop n t e = -1 := by
  intro n
  induction n with
  | zero => intro t e he; omega
  | succ n ih =>
    intro t e he
    show (if e = n then (-1 : Int) else initLoop n t e) = -1
    by_cases h : e = n
    · rw [if_pos h]
    · rw [if_neg h]
      exact ih t e (by omega)

theorem initLoop_ge : ∀ (n : Nat) (t : Nat → Int) (e : Nat), n ≤ e →
    initLoop n t e = t e := by
  intro n
  induction n with
  | zero => intro t e _; rfl
  | succ n ih =>
    intro t e he
    show (if e = n then (-1 : Int) else initLoop n t e) = t e
    rw [if_neg (by omega)]
    exact ih t e (by omega)

/-- The fill loop of `timecoder_build_lookup`: starting at `current`, write
cycle indices `n, n+1, ...` for `steps` steps, advancing with `fwd`; fail
(`LookupWrap`, the C `return -1`) when the current slot is already set.
(The C loop also asserts `rev(fwd(current)) == current` at each step; that
assertion is discharged for every in-range state by `rev_fwd_eq`.) -/
def buildFrom (d : timecode_def) : Nat → Nat → Nat → (Nat → Int) →
    Option (Nat → Int)
  | 0, _, _, table => some table
  | steps + 1, current, n, table =>
    if table current = -1 then
      buildFrom d steps (fwd d current) (n + 1)
        (fun e => if e = current then (n : Int) else table e)
    else none

/-- The table produced by `timecoder_build_lookup` for definition `d`
(when the walk does not wrap). -/
def timecoder_build_lookup_table (d : timecode_def) (garbage : Nat → Int) :
    Option (Nat → Int) :=
  buildFrom d d.length d.seed 0 (initLoop (lookupSlots d) garbage)

/-- The sequence of forward iterates: `iterN d c n` is the `n`-th forward
iterate of `c`. -/
def iterN (d : timecode_def) (c : Nat) : Nat → Nat
  | 0 => c
  | n + 1 => fwd d (iterN d c n)

theorem iterN_shift (d : timecode_def) (c : Nat) :
    ∀ n, iterN d (fwd d c) n = iterN d c (n + 1) := by
  intro n
  induction n with
  | zero => rfl
  | succ n ih =>
    show fwd d (iterN d (fwd d c) n) = fwd d (iterN d c (n + 1))
    rw [ih]

/-- Success of the fill loop leaves already-set slots untouched. -/
theorem buildFrom_preserves (d : timecode_def) : ∀ (steps c n : Nat)
    (t t' : Nat → Int), buildFrom d steps c n t = some t' →
    ∀ e, t e ≠ -1 → t' e = t e := by
  intro steps
  induction steps with
  | zero =>
    intro c n t t' h e _
    cases h
    rfl
  | succ steps ih =>
    intro c n t t' h e he
    unfold buildFrom at h
    by_cases hc : t c = -1
    · rw [if_pos hc] at h
      have hne : e ≠ c := fun hec => he (hec ▸ hc)
      have := ih (fwd d c) (n + 1) _ t' h e
      rw [if_neg hne] at this
      exact this he
    · rw [if_neg hc] at h
      cases h

/-- Success of the fill loop writes index `n + i` at the `i`-th iterate. -/
theorem buildFrom_maps (d : timecode_def) : ∀ (steps c n : Nat)
    (t t' : Nat → Int), buildFrom d steps c n t = some t' →
    ∀ i, i < steps → t' (iterN d c i) = ((n + i : Nat) : Int) := by
  intro steps
  induction steps with
  | zero => intro c n t t' _ i hi; omega
  | succ steps ih =>
    intro c n t t' h i hi
    unfold buildFrom at h
    by_cases hc : t c = -1
    · rw [if_pos hc] at h
      cases i with
      | zero =>
        show t' c = ((n + 0 : Nat) : Int)
        have hset : (fun e => if e = c then (n : Int) else t e) c ≠ -1 := by
          show (if c = c then (n : Int) else t c) ≠ -1
          rw [if_pos rfl]
          omega
        have := buildFrom_preserves d steps (fwd d c) (n + 1) _ t' h c hset
        rw [this]
        simp only [if_pos rfl]
        norm_num
      | succ i =>
        have := ih (fwd d c) (n + 1) _ t' h i (by omega)
        rw [iterN_shift] at this
        rw [this]
        congr 1
        omega
    · rw [if_neg hc] at h
      cases h

/-- Success of the fill loop leaves slots off the walk unchanged. -/
theorem buildFrom_untouched (d : timecode_def) : ∀ (steps c n : Nat)
    (t t' : Nat → Int), buildFrom d steps c n t = some t' →
    ∀ e, (∀ i, i < steps → iterN d c i ≠ e) → t' e = t e := by
  intro steps
  induction steps with
  | zero =>
    intro c n t t' h e _
    cases h
    rfl
  | succ steps ih =>
    intro c n t t' h e he
    unfold buildFrom at h
    by_cases hc : t c = -1
    · rw [if_pos hc] at h
      have hne : c ≠ e := he 0 (by omega)
      have := ih (fwd d c) (n + 1) _ t' h e
        (fun i hi => by rw [iterN_shift]; exact he (i + 1) (by omega))
      rw [this, if_neg (fun h' : e = c => hne h'.symm)]
    · rw [if_neg hc] at h
      cases h

/-- The fill loop succeeds exactly when each visited slot was still at the
sentinel and the walk had not revisited an earlier state. -/
theorem buildFrom_isSome_iff (d : timecode_def) : ∀ (steps c n : Nat)
    (t : Nat → Int), (∃ t', buildFrom d steps c n t = some t') ↔
    (∀ i, i < steps → (t (iterN d c i) = -1 ∧
      ∀ j, j < i → iterN d c j ≠ iterN d c i)) := by
  intro steps
  induction steps with
  | zero =>
    intro c n t
    constructor
    · intro _ i hi; omega
    · intro _; exact ⟨t, rfl⟩
  | succ steps ih =>
    intro c n t
    unfold buildFrom
    by_cases hc : t c = -1
    · rw [if_pos hc]
      rw [ih (fwd d c) (n + 1)]
      constructor
      · intro h i hi
        cases i with
        | zero => exact ⟨hc, fun j hj => absurd hj (by omega)⟩
        | succ i =>
          have h1 := h i (by omega)
          rw [iterN_shift] at h1
          refine ⟨?_, ?_⟩
          · have := h1.1
            by_cases hci : c = iterN d c (i + 1)
            · rw [if_pos hci.symm] at this
              omega
            · rw [if_neg (fun h' : iterN d c (i + 1) = c => hci h'.symm)] at this
              exact this
          · intro j hj
            cases j with
            | zero =>
              show c ≠ iterN d c (i + 1)
              intro hcc
              have := h1.1
              rw [if_pos hcc.symm] at this
              omega
            | succ j =>
              have := h1.2 j (by omega)
              rw [iterN_shift] at this
              exact this
      · intro h i hi
        have h1 := h (i + 1) (by omega)
        rw [iterN_shift]
        refine ⟨?_, ?_⟩
        · have hne : iterN d c (i + 1) ≠ c := by
            have := h1.2 0 (by omega)
            exact fun h' => this h'.symm
          rw [if_neg hne]
          exact h1.1
        · intro j hj
          have := h1.2 (j + 1) (by omega)
          simp only [iterN_shift]
          exact this
    · rw [if_neg hc]
      constructor
      · intro h
        obtain ⟨t', ht'⟩ := h
        cases ht'
      · intro h
        have := (h 0 (by omega)).1
        exact absurd this hc

/-- One forward step keeps a code word inside `[0, 2 ^ bits)`. -/
theorem fwd_lt_two_pow (d : timecode_def) (x : Nat) (hw : 1 ≤ d.bits)
    (hx : x < 2 ^ d.bits) : fwd d x < 2 ^ d.bits := by
  unfold fwd
  have hpow : (2 : Nat) ^ d.bits = 2 ^ (d.bits - 1) * 2 := by
    rw [← Nat.pow_succ]
    congr 1
    omega
  apply Nat.or_lt_two_pow
  · rw [Nat.shiftRight_eq_div_pow, Nat.pow_one]
    omega
  · rw [Nat.shiftLeft_eq]
    have := lfsr_le_one x (d.taps ||| 1)
    have h1 : lfsr x (d.taps ||| 1) * 2 ^ (d.bits - 1) ≤ 2 ^ (d.bits - 1) := by
      calc lfsr x (d.taps ||| 1) * 2 ^ (d.bits - 1) ≤ 1 * 2 ^ (d.bits - 1) :=
        Nat.mul_le_mul_right _ this
      _ = 2 ^ (d.bits - 1) := Nat.one_mul _
    omega

/-- One reverse step keeps a code word inside `[0, 2 ^ bits)`. -/
theorem rev_lt_two_pow (d : timecode_def) (x : Nat) (hw : 1 ≤ d.bits) :
    rev d x < 2 ^ d.bits := by
  unfold rev
  have hpow : (0 : Nat) < 2 ^ d.bits := by positivity
  apply Nat.or_lt_two_pow
  · rw [Nat.one_shiftLeft, Nat.and_pow_two_sub_one_eq_mod]
    exact Nat.mod_lt _ hpow
  · have h1 := lfsr_le_one x ((d.taps >>> 1) ||| (1 <<< (d.bits - 1)))
    have h2 : (1 : Nat) < 2 ^ d.bits := by
      calc (1 : Nat) < 2 ^ 1 := by omega
      _ ≤ 2 ^ d.bits := Nat.pow_le_pow_right (by omega) hw
    omega

theorem iterN_lt (d : timecode_def) (hw : 1 ≤ d.bits)
    (hseed : d.seed < 2 ^ d.bits) : ∀ n, iterN d d.seed n < 2 ^ d.bits := by
  intro n
  induction n with
  | zero => exact hseed
  | succ n ih => exact fwd_lt_two_pow d _ hw ih

theorem lookupSlots_eq (d : timecode_def) : lookupSlots d = 2 ^ (d.bits + 1) := by
  unfold lookupSlots
  rw [Nat.shiftLeft_eq, Nat.pow_succ]
  ring

theorem two_pow_bits_lt_lookupSlots (d : timecode_def) :
    2 ^ d.bits < lookupSlots d := by
  rw [lookupSlots_eq, Nat.pow_succ]
  have : (0 : Nat) < 2 ^ d.bits := by positivity
  omega

/-- C2: after a successful lookup build, the `n`-th forward iterate of the
seed indexes entry `n`; exactly `length` slots are non-sentinel; every slot
off the walk still holds the sentinel `-1`; and the build fails (wraps)
exactly when a forward iterate revisits an earlier iterate within the first
`length` steps. -/
theorem C2_lookup_build (d : timecode_def) (garbage : Nat → Int)
    (hw : 1 ≤ d.bits) (hseed : d.seed < 2 ^ d.bits) :
    (∀ t, timecoder_build_lookup_table d garbage = some t →
      (∀ n, n < d.length → t (iterN d d.seed n) = (n : Int)) ∧
      (((Finset.range (lookupSlots d)).filter (fun e => t e ≠ -1)).card
        = d.length) ∧
      (∀ e, e < lookupSlots d → (∀ n, n < d.length → iterN d d.seed n ≠ e) →
        t e = -1)) ∧
    (timecoder_build_lookup_table d garbage = none ↔
      ∃ n, n < d.length ∧ ∃ m, m < n ∧ iterN d d.seed m = iterN d d.seed n) := by
  have hiter : ∀ n, iterN d d.seed n < lookupSlots d := fun n =>
    Nat.lt_trans (iterN_lt d hw hseed n) (two_pow_bits_lt_lookupSlots d)
  constructor
  · intro t ht
    have hmaps : ∀ n, n < d.length → t (iterN d d.seed n) = (n : Int) := by
      intro n hn
      have := buildFrom_maps d d.length d.seed 0 _ t ht n hn
      rw [this]
      norm_num
    have hsome : ∃ t', buildFrom d d.length d.seed 0
        (initLoop (lookupSlots d) garbage) = some t' := ⟨t, ht⟩
    have hdistinct := (buildFrom_isSome_iff d d.length d.seed 0
      (initLoop (lookupSlots d) garbage)).mp hsome
    have hinj : Set.InjOn (iterN d d.seed) (Finset.range d.length) := by
      intro m hm n hn hmn
      simp only [Finset.coe_range, Set.mem_Iio] at hm hn
      by_contra hne
      rcases Nat.lt_or_ge m n with h | h
      · exact (hdistinct n hn).2 m h hmn
      · have hlt : n < m := by omega
        exact (hdistinct m hm).2 n hlt hmn.symm
    have huntouched : ∀ e, e < lookupSlots d →
        (∀ n, n < d.length → iterN d d.seed n ≠ e) → t e = -1 := by
      intro e he hne
      have := buildFrom_untouched d d.length d.seed 0 _ t ht e hne
      rw [this]
      exact initLoop_lt _ _ _ he
    refine ⟨hmaps, ?_, huntouched⟩
    · have hset : (Finset.range (lookupSlots d)).filter (fun e => t e ≠ -1) =
          (Finset.range d.length).image (iterN d d.seed) := by
        ext e
        simp only [Finset.mem_filter, Finset.mem_range, Finset.mem_image]
        constructor
        · rintro ⟨he, hne⟩
          by_contra hno
          push_neg at hno
          exact hne (huntouched e he (fun n hn => hno n hn))
        · rintro ⟨n, hn, rfl⟩
          refine ⟨hiter n, ?_⟩
          rw [hmaps n hn]
          omega
      rw [hset, Finset.card_image_of_injOn hinj, Finset.card_range]
  · have hinit : ∀ i, i < d.length →
        initLoop (lookupSlots d) garbage (iterN d d.seed i) = -1 := fun i _ =>
      initLoop_lt _ _ _ (hiter i)
    constructor
    · intro hnone
      by_contra hno
      push_neg at hno
      have hcond : ∀ i, i < d.length →
          (initLoop (lookupSlots d) garbage (iterN d d.seed i) = -1 ∧
            ∀ j, j < i → iterN d d.seed j ≠ iterN d d.seed i) := by
        intro i hi
        refine ⟨hinit i hi, ?_⟩
        intro j hj hja
        exact hno i hi j hj hja
      obtain ⟨t', ht'⟩ := (buildFrom_isSome_iff d d.length d.seed 0
        (initLoop (lookupSlots d) garbage)).mpr hcond
      rw [timecoder_build_lookup_table] at hnone
      rw [ht'] at hnone
      cases hnone
    · rintro ⟨n, hn, m, hm, heq⟩
      rcases hcase : timecoder_build_lookup_table d garbage with _ | t
      · rfl
      · exfalso
        have hsome : ∃ t', buildFrom d d.length d.seed 0
            (initLoop (lookupSlots d) garbage) = some t' := ⟨t, hcase⟩
        have hdistinct := (buildFrom_isSome_iff d d.length d.seed 0
          (initLoop (lookupSlots d) garbage)).mp hsome
        exact (hdistinct n hn).2 m hm heq

/-- A miniature maximal-period 3-bit code used to exercise the builder
theorems on a concretely-computable instance. -/
def toy_def : timecode_def := ⟨"toy", "toy 3-bit code", 1000, true, 3, 1, 2, 7, 6⟩

/-- Witness for C2 on the 3-bit toy code. -/
theorem C2_lookup_build_witness :
    (1 ≤ toy_def.bits ∧ toy_def.seed < 2 ^ toy_def.bits) ∧
      ((∀ t, timecoder_build_lookup_table toy_def (fun _ => 0) = some t →
        (∀ n, n < toy_def.length → t (iterN toy_def toy_def.seed n) = (n : Int)) ∧
        (((Finset.range (lookupSlots toy_def)).filter (fun e => t e ≠ -1)).card
          = toy_def.length) ∧
        (∀ e, e < lookupSlots toy_def →
          (∀ n, n < toy_def.length → iterN toy_def toy_def.seed n ≠ e) →
          t e = -1)) ∧
      (timecoder_build_lookup_table toy_def (fun _ => 0) = none ↔
        ∃ n, n < toy_def.length ∧ ∃ m, m < n ∧
          iterN toy_def toy_def.seed m = iterN toy_def toy_def.seed n)) :=
  ⟨⟨by decide, by decide⟩,
    C2_lookup_build toy_def (fun _ => 0) (by decide) (by decide)⟩

/-! ### The decoder state (`struct timecoder_t` as used by timecoder.c)

The analogue quantities that the C code holds in `float`s (or in `int`s fed
from `float` expressions) — the DC estimates, filter coefficients, peak
levels and signal level — are modelled as exact rationals.  The monitor
buffer and the bit-log sink are modelled separately from this structure. -/

structure timecoder_channel where
  positive : Bool
  zero : ℚ
  crossing_ticker : Nat
  deriving DecidableEq

structure timecoder where
  forwards : Bool
  rate : Nat
  zero_alpha : ℚ
  signal_alpha : ℚ
  half_peak : ℚ
  wave_peak : ℚ
  ref_level : ℚ
  signal_level : ℚ
  mono : timecoder_channel
  channel0 : timecoder_channel
  channel1 : timecoder_channel
  crossings : Int
  pitch_ticker : Nat
  crossing_ticker : Nat
  bitstream : Nat
  timecode : Nat
  valid_counter : Nat
  timecode_ticker : Nat
  deriving DecidableEq

def ZERO_THRESHOLD : ℚ := 128

def VALID_BITS : Nat := 24

def REF_PEAKS_AVG : ℚ := 48

/-- Time constant `ZERO_RC = 0.001` seconds. -/
def ZERO_RC : ℚ := 1 / 1000

/-- Time constant `SIGNAL_RC = 0.004` seconds. -/
def SIGNAL_RC : ℚ := 1 / 250

def init_channel : timecoder_channel := ⟨false, 0, 0⟩

/-- State left by `timecoder_init`.  (The C function never initialises
`tc->crossing_ticker`; it is modelled here as starting at 0, the most
charitable choice.) -/
def timecoder_init : timecoder :=
  ⟨true, 0, 0, 0, 0, 0, -1, 0, init_channel, init_channel, init_channel,
    0, 0, 0, 0, 0, 0, 0⟩

/-- Function `set_sample_rate`: store the rate and derive the one-pole
filter coefficients `alpha = dt / (RC + dt)`. -/
def set_sample_rate (tc : timecoder) (rate : Nat) : timecoder :=
  let dt : ℚ := 1 / (rate : ℚ)
  { tc with
    rate := rate
    zero_alpha := dt / (ZERO_RC + dt)
    signal_alpha := dt / (SIGNAL_RC + dt) }

/-- Function `detect_zero_crossing`: hysteretic sign detector plus one-pole
DC estimator.  Returns the `swapped` flag and the updated channel. -/
def detect_zero_crossing (ch : timecoder_channel) (v : ℚ) (alpha : ℚ) :
    Bool × timecoder_channel :=
  let ticker := ch.crossing_ticker + 1
  let z := ch.zero + alpha * (v - ch.zero)
  if v ≥ ch.zero + ZERO_THRESHOLD ∧ ch.positive = false then
    (true, ⟨true, z, 0⟩)
  else if v < ch.zero - ZERO_THRESHOLD ∧ ch.positive = true then
    (true, ⟨false, z, 0⟩)
  else
    (false, ⟨ch.positive, z, ticker⟩)

/-- Line 381 of timecoder.c: `g = pcm[offset] + pcm[offset + 1];` — the two
`signed short` channel samples are promoted to `int`, so this sum itself is
exact. -/
def mono_input (L R : Int) : Int := L + R

/-- Conversion of an `int` to `signed short` (two's-complement narrowing).
`detect_zero_crossing` declares its sample parameter `signed short v`
(timecoder.c line 324), so the `int` mono sum is narrowed to 16 bits at
the call on line 382. -/
def short_of_int (n : Int) : Int := (n + 32768) % 65536 - 32768

/-- The completed-full-cycle branch of `timecoder_submit`: slice the bit,
fuse it into `bitstream`, step the predicted `timecode`, run the error
check, and update the reference level.  (The C code computes the reference
average in integer arithmetic; the peaks are rationals here.) -/
def cycleUpdate (d : timecode_def) (tc : timecoder) : timecoder :=
  let b : Nat := if tc.wave_peak + tc.half_peak > tc.ref_level then 1 else 0
  let bs : Nat :=
    if tc.forwards then (tc.bitstream >>> 1) + (b <<< (d.bits - 1))
    else ((tc.bitstream <<< 1) &&& ((1 <<< d.bits) - 1)) + b
  let tcode : Nat := if tc.forwards then fwd d tc.timecode else rev d tc.timecode
  { tc with
    bitstream := bs
    timecode := if tcode = bs then tcode else bs
    valid_counter := if tcode = bs then tc.valid_counter + 1 else 0
    timecode_ticker := 0
    ref_level := if tc.ref_level = -1 then tc.half_peak + tc.wave_peak
      else (tc.ref_level * (REF_PEAKS_AVG - 1) + tc.half_peak + tc.wave_peak)
        / REF_PEAKS_AVG }

/-- On a mono swap: either we are entering the second half of a wave cycle
(store `half_peak`) or a full cycle has completed (decode a bit). -/
def halfOrCycleUpdate (d : timecode_def) (tc : timecoder) : timecoder :=
  if tc.mono.positive = Bool.xor d.polarity tc.forwards then
    { tc with half_peak := tc.wave_peak }
  else cycleUpdate d tc

/-- The direction-inference block run on every mono swap: infer direction
from the stereo tickers, count the crossing, and accumulate the pitch
window. -/
def directionUpdate (tc : timecoder) : timecoder :=
  let f : Bool := decide (tc.channel1.crossing_ticker < tc.channel0.crossing_ticker)
  { tc with
    forwards := f
    crossings := if f then tc.crossings + 1 else tc.crossings - 1
    pitch_ticker := tc.pitch_ticker + tc.crossing_ticker
    crossing_ticker := 0
    wave_peak := 0 }

/-- The per-sample trailer: advance the tickers, track the wave peak, and
low-pass the signal level. -/
def postUpdate (tc : timecoder) (g : Int) : timecoder :=
  let m : ℚ := |(g : ℚ) - tc.mono.zero|
  { tc with
    crossing_ticker := tc.crossing_ticker + 1
    timecode_ticker := tc.timecode_ticker + 1
    wave_peak := if m > tc.wave_peak then m else tc.wave_peak
    signal_level := tc.signal_level + tc.signal_alpha * (m - tc.signal_level) }

/-- One iteration of the per-sample loop of `timecoder_submit` for the
stereo frame `(L, R)`.  The mono detector receives the sum narrowed to
`signed short` (the type of the `v` parameter); the peak tracking at line
476 (`m = abs(g - tc->mono.zero)`) uses the full `int` sum `g`. -/
def sampleStep (d : timecode_def) (tc : timecoder) (L R : Int) : timecoder :=
  let ch0 := (detect_zero_crossing tc.channel0 (L : ℚ) tc.zero_alpha).2
  let ch1 := (detect_zero_crossing tc.channel1 (R : ℚ) tc.zero_alpha).2
  let g : Int := mono_input L R
  let mres := detect_zero_crossing tc.mono ((short_of_int g : Int) : ℚ)
    tc.zero_alpha
  let tc1 := { tc with channel0 := ch0, channel1 := ch1, mono := mres.2 }
  let tc2 := if mres.1 then directionUpdate (halfOrCycleUpdate d tc1) else tc1
  postUpdate tc2 g

/-- Function `timecoder_submit`: set the sample rate, then run the
per-sample loop over the block. -/
def timecoder_submit (d : timecode_def) (tc : timecoder) (rate : Nat)
    (pcm : List (Int × Int)) : timecoder :=
  pcm.foldl (fun t fr => sampleStep d t fr.1 fr.2) (set_sample_rate tc rate)

/-- Function `timecoder_get_pitch`: absent when no crossings were counted;
otherwise report `rate * crossings / pitch_ticker / (resolution * 2)` and
drain the counters. -/
def timecoder_get_pitch (d : timecode_def) (tc : timecoder) :
    Option ℚ × timecoder :=
  if tc.crossings = 0 then (none, tc)
  else
    (some ((tc.rate : ℚ) * (tc.crossings : ℚ) / (tc.pitch_ticker : ℚ) /
        ((d.resolution : ℚ) * 2)),
      { tc with crossings := 0, pitch_ticker := 0 })

/-- Function `timecoder_get_position`: the lookup entry for the current
bitstream when enough bits have validated, else the sentinel `-1`; the
second component is the optional `*when` output (`timecode_ticker / rate`,
an integer division in the C code). -/
def timecoder_get_position (tc : timecoder) (lookup : Nat → Int) :
    Int × Option Nat :=
  if tc.valid_counter > VALID_BITS then
    if lookup tc.bitstream ≥ 0 then
      (lookup tc.bitstream, some (tc.timecode_ticker / tc.rate))
    else (-1, none)
  else (-1, none)

/-! ### The monitor (scope) buffer updates of `timecoder_submit` -/

/-- Pixel buffer state: `tc->mon`, `tc->mon_size`, `tc->mon_counter`. -/
structure monitor where
  size : Nat
  counter : Nat
  pix : Nat → Nat

def MONITOR_DECAY_EVERY : Nat := 512

/-- Truncation toward zero, the C `float`-to-`int` conversion. -/
def ratTrunc (q : ℚ) : Int := if q < 0 then -(⌊-q⌋) else ⌊q⌋

/-- A monitor coordinate: `monitor_centre + (v * tc->mon_size)` where
`v = (float)sample / tc->ref_level`, truncated to `int`. -/
def monitorCoord (size : Nat) (ref_level : Int) (s : Int) : Int :=
  ratTrunc (((size / 2 : Nat) : ℚ) + (s : ℚ) / (ref_level : ℚ) * (size : ℚ))

/-- The plot guard `x > 0 && x < mon_size && y > 0 && y < mon_size`. -/
def monitorInBounds (size : Nat) (x y : Int) : Bool :=
  decide (0 < x) && decide (x < (size : Int)) &&
    decide (0 < y) && decide (y < (size : Int))

/-- The decay loop `for(p = 0; p < SQ(mon_size); p++)`, scaling each
non-zero pixel by `7/8`. -/
def decayLoop : Nat → (Nat → Nat) → (Nat → Nat)
  | 0, pix => pix
  | p + 1, pix =>
    let prev := decayLoop p pix
    fun q => if q = p then (if prev p ≠ 0 then prev p * 7 / 8 else prev p)
      else prev q

/-- The per-frame monitor update of `timecoder_submit`: bump the counter,
decay every `MONITOR_DECAY_EVERY` samples, then plot the stereo sample as a
white pixel when it falls strictly inside the buffer. -/
def monitorUpdate (m : monitor) (ref_level : Int) (L R : Int) : monitor :=
  let counter := m.counter + 1
  let pix1 := if counter % MONITOR_DECAY_EVERY = 0
    then decayLoop (m.size * m.size) m.pix else m.pix
  let x := monitorCoord m.size ref_level L
  let y := monitorCoord m.size ref_level R
  if monitorInBounds m.size x y then
    ⟨m.size, counter,
      fun p => if p = (y * (m.size : Int) + x).toNat then 0xff else pix1 p⟩
  else ⟨m.size, counter, pix1⟩

/-! ### Claim theorems about the decoder queries -/

/-- C3: `timecoder_get_position` reports a (non-negative) position exactly
when more than `VALID_BITS` bits have validated and the lookup entry is not
the sentinel; otherwise it returns `-1` and does not write the age
output. -/
theorem C3_get_position (tc : timecoder) (lookup : Nat → Int)
    (hlk : ∀ e, -1 ≤ lookup e) :
    (0 ≤ (timecoder_get_position tc lookup).1 ↔
      (tc.valid_counter > VALID_BITS ∧ lookup tc.bitstream ≠ -1)) ∧
    ((tc.valid_counter > VALID_BITS ∧ lookup tc.bitstream ≠ -1) →
      timecoder_get_position tc lookup =
        (lookup tc.bitstream, some (tc.timecode_ticker / tc.rate))) ∧
    (¬(tc.valid_counter > VALID_BITS ∧ lookup tc.bitstream ≠ -1) →
      timecoder_get_position tc lookup = (-1, none)) := by
  have hb := hlk tc.bitstream
  unfold timecoder_get_position
  by_cases hv : tc.valid_counter > VALID_BITS
  · rw [if_pos hv]
    by_cases hr : lookup tc.bitstream ≥ 0
    · rw [if_pos hr]
      refine ⟨⟨fun _ => ⟨hv, by omega⟩, fun _ => hr⟩, fun _ => rfl, fun h => ?_⟩
      exact absurd ⟨hv, by omega⟩ h
    · rw [if_neg hr]
      refine ⟨⟨fun h0 => absurd h0 (by norm_num), fun h => absurd h (by omega)⟩,
        fun h => absurd h (by omega), fun _ => rfl⟩
  · rw [if_neg hv]
    refine ⟨⟨fun h0 => absurd h0 (by norm_num), fun h => absurd hv (by tauto)⟩,
      fun h => absurd hv (by tauto), fun _ => rfl⟩

/-- Witness for C3 on the freshly initialised decoder and an all-5 table. -/
theorem C3_get_position_witness :
    (∀ e : Nat, (-1 : Int) ≤ (fun _ => (5 : Int)) e) ∧
    ((0 ≤ (timecoder_get_position timecoder_init (fun _ => 5)).1 ↔
      (timecoder_init.valid_counter > VALID_BITS ∧
        (fun _ => (5 : Int)) timecoder_init.bitstream ≠ -1)) ∧
    ((timecoder_init.valid_counter > VALID_BITS ∧
        (fun _ => (5 : Int)) timecoder_init.bitstream ≠ -1) →
      timecoder_get_position timecoder_init (fun _ => 5) =
        ((fun _ => (5 : Int)) timecoder_init.bitstream,
          some (timecoder_init.timecode_ticker / timecoder_init.rate))) ∧
    (¬(timecoder_init.valid_counter > VALID_BITS ∧
        (fun _ => (5 : Int)) timecoder_init.bitstream ≠ -1) →
      timecoder_get_position timecoder_init (fun _ => 5) = (-1, none))) :=
  ⟨fun _ => by norm_num,
    C3_get_position timecoder_init (fun _ => 5) (fun _ => by norm_num)⟩

/-- C6: for every decoder state, `timecoder_get_pitch` is absent (and
leaves the state untouched) exactly when `crossings == 0`; otherwise it
reports `rate * crossings / pitch_ticker / (resolution * 2)` and drains
both counters; and whenever the divisors are positive the reported pitch
carries the sign of `crossings`. -/
theorem C6_get_pitch (d : timecode_def) (tc : timecoder) :
    ((timecoder_get_pitch d tc).1 = none ∧ (timecoder_get_pitch d tc).2 = tc ↔
      tc.crossings = 0) ∧
    (tc.crossings ≠ 0 →
      (timecoder_get_pitch d tc).1 =
        some ((tc.rate : ℚ) * (tc.crossings : ℚ) / (tc.pitch_ticker : ℚ) /
          ((d.resolution : ℚ) * 2)) ∧
      (timecoder_get_pitch d tc).2.crossings = 0 ∧
      (timecoder_get_pitch d tc).2.pitch_ticker = 0) ∧
    (tc.crossings ≠ 0 → 0 < tc.rate → 0 < tc.pitch_ticker →
      0 < d.resolution →
      (0 < tc.crossings →
        0 < (tc.rate : ℚ) * (tc.crossings : ℚ) / (tc.pitch_ticker : ℚ) /
          ((d.resolution : ℚ) * 2)) ∧
      (tc.crossings < 0 →
        (tc.rate : ℚ) * (tc.crossings : ℚ) / (tc.pitch_ticker : ℚ) /
          ((d.resolution : ℚ) * 2) < 0)) := by
  have hsign : tc.crossings ≠ 0 → 0 < tc.rate → 0 < tc.pitch_ticker →
      0 < d.resolution →
      (0 < tc.crossings →
        0 < (tc.rate : ℚ) * (tc.crossings : ℚ) / (tc.pitch_ticker : ℚ) /
          ((d.resolution : ℚ) * 2)) ∧
      (tc.crossings < 0 →
        (tc.rate : ℚ) * (tc.crossings : ℚ) / (tc.pitch_ticker : ℚ) /
          ((d.resolution : ℚ) * 2) < 0) := by
    intro _ hr hp hres
    have hrq : (0 : ℚ) < (tc.rate : ℚ) := by exact_mod_cast hr
    have hpq : (0 : ℚ) < (tc.pitch_ticker : ℚ) := by exact_mod_cast hp
    have hresq : (0 : ℚ) < (d.resolution : ℚ) * 2 := by
      have : (0 : ℚ) < (d.resolution : ℚ) := by exact_mod_cast hres
      linarith
    constructor
    · intro hpos
      have hcq : (0 : ℚ) < (tc.crossings : ℚ) := by exact_mod_cast hpos
      positivity
    · intro hneg
      have hcq : (tc.crossings : ℚ) < 0 := by exact_mod_cast hneg
      have h1 : (tc.rate : ℚ) * (tc.crossings : ℚ) < 0 :=
        mul_neg_of_pos_of_neg hrq hcq
      have h2 : (tc.rate : ℚ) * (tc.crossings : ℚ) / (tc.pitch_ticker : ℚ)
          < 0 := div_neg_of_neg_of_pos h1 hpq
      exact div_neg_of_neg_of_pos h2 hresq
  refine ⟨?_, ?_, hsign⟩
  · unfold timecoder_get_pitch
    by_cases hc : tc.crossings = 0
    · rw [if_pos hc]
      exact ⟨fun _ => hc, fun _ => ⟨rfl, rfl⟩⟩
    · rw [if_neg hc]
      exact ⟨fun h0 => absurd h0.1 (by simp), fun h => absurd h hc⟩
  · intro hc
    unfold timecoder_get_pitch
    rw [if_neg hc]
    exact ⟨rfl, rfl, rfl⟩

/-- A decoder that has counted three forward crossings over a hundred
samples at 44100 Hz; exercises the pitch query. -/
def tc_pitch_demo : timecoder :=
  { timecoder_init with
    rate := 44100
    pitch_ticker := 100
    crossings := 3 }

/-- Witness for C6 on `tc_pitch_demo`. -/
theorem C6_get_pitch_witness :
    (tc_pitch_demo.crossings ≠ 0 ∧ 0 < tc_pitch_demo.rate ∧
      0 < tc_pitch_demo.pitch_ticker ∧ 0 < serato_2a.resolution) ∧
    ((timecoder_get_pitch serato_2a tc_pitch_demo).1 =
        some ((tc_pitch_demo.rate : ℚ) * (tc_pitch_demo.crossings : ℚ) /
          (tc_pitch_demo.pitch_ticker : ℚ) /
          ((serato_2a.resolution : ℚ) * 2)) ∧
      (timecoder_get_pitch serato_2a tc_pitch_demo).2.crossings = 0 ∧
      (timecoder_get_pitch serato_2a tc_pitch_demo).2.pitch_ticker = 0) ∧
    ((0 < tc_pitch_demo.crossings →
        0 < (tc_pitch_demo.rate : ℚ) * (tc_pitch_demo.crossings : ℚ) /
          (tc_pitch_demo.pitch_ticker : ℚ) /
          ((serato_2a.resolution : ℚ) * 2)) ∧
      (tc_pitch_demo.crossings < 0 →
        (tc_pitch_demo.rate : ℚ) * (tc_pitch_demo.crossings : ℚ) /
          (tc_pitch_demo.pitch_ticker : ℚ) /
          ((serato_2a.resolution : ℚ) * 2) < 0)) :=
  ⟨⟨by norm_num [tc_pitch_demo], by norm_num [tc_pitch_demo],
      by norm_num [tc_pitch_demo], by norm_num [serato_2a]⟩,
    (C6_get_pitch serato_2a tc_pitch_demo).2.1 (by norm_num [tc_pitch_demo]),
    (C6_get_pitch serato_2a tc_pitch_demo).2.2 (by norm_num [tc_pitch_demo])
      (by norm_num [tc_pitch_demo]) (by norm_num [tc_pitch_demo])
      (by norm_num [serato_2a])⟩

/-! ### C7: width invariant of `bitstream` and `timecode` -/

/-- The width invariant claimed by the spec. -/
def code_bounds (d : timecode_def) (tc : timecoder) : Prop :=
  tc.bitstream < 2 ^ d.bits ∧ tc.timecode < 2 ^ d.bits

theorem forward_fusion_lt (w bs b : Nat) (hw : 1 ≤ w) (hbs : bs < 2 ^ w)
    (hb : b ≤ 1) : (bs >>> 1) + (b <<< (w - 1)) < 2 ^ w := by
  rw [Nat.shiftRight_eq_div_pow, Nat.shiftLeft_eq, Nat.pow_one]
  have hpow : (2 : Nat) ^ w = 2 ^ (w - 1) * 2 := by
    rw [← Nat.pow_succ]
    congr 1
    omega
  have h1 : b * 2 ^ (w - 1) ≤ 2 ^ (w - 1) := by
    calc b * 2 ^ (w - 1) ≤ 1 * 2 ^ (w - 1) := Nat.mul_le_mul_right _ hb
    _ = 2 ^ (w - 1) := Nat.one_mul _
  omega

theorem reverse_fusion_lt (w bs b : Nat) (hw : 1 ≤ w) (hb : b ≤ 1) :
    ((bs <<< 1) &&& ((1 <<< w) - 1)) + b < 2 ^ w := by
  rw [Nat.one_shiftLeft, Nat.shiftLeft_eq, Nat.pow_one,
    Nat.and_pow_two_sub_one_eq_mod]
  have hpow : (2 : Nat) ^ w = 2 * 2 ^ (w - 1) := by
    rw [Nat.mul_comm, ← Nat.pow_succ]
    congr 1
    omega
  have h1 : bs * 2 % 2 ^ w = 2 * (bs % 2 ^ (w - 1)) := by
    rw [Nat.mul_comm bs 2, hpow, Nat.mul_mod_mul_left]
  have h2 : bs % 2 ^ (w - 1) < 2 ^ (w - 1) := Nat.mod_lt _ (by positivity)
  omega

theorem cycleUpdate_bounds (d : timecode_def) (tc : timecoder)
    (hw : 1 ≤ d.bits) (h : code_bounds d tc) :
    code_bounds d (cycleUpdate d tc) := by
  obtain ⟨hbs, htc⟩ := h
  have hb : (if tc.wave_peak + tc.half_peak > tc.ref_level then (1 : Nat)
      else 0) ≤ 1 := by
    split <;> omega
  unfold cycleUpdate code_bounds
  dsimp only
  by_cases hf : tc.forwards = true
  · by_cases hbp : tc.wave_peak + tc.half_peak > tc.ref_level
    · simp only [if_pos hf, if_pos hbp]
      have hbs2 := forward_fusion_lt d.bits tc.bitstream 1 hw hbs (by omega)
      refine ⟨hbs2, ?_⟩
      split
      · exact fwd_lt_two_pow d tc.timecode hw htc
      · exact hbs2
    · simp only [if_pos hf, if_neg hbp]
      have hbs2 := forward_fusion_lt d.bits tc.bitstream 0 hw hbs (by omega)
      refine ⟨hbs2, ?_⟩
      split
      · exact fwd_lt_two_pow d tc.timecode hw htc
      · exact hbs2
  · by_cases hbp : tc.wave_peak + tc.half_peak > tc.ref_level
    · simp only [if_neg hf, if_pos hbp]
      have hbs2 := reverse_fusion_lt d.bits tc.bitstream 1 hw (by omega)
      refine ⟨hbs2, ?_⟩
      split
      · exact rev_lt_two_pow d tc.timecode hw
      · exact hbs2
    · simp only [if_neg hf, if_neg hbp]
      have hbs2 := reverse_fusion_lt d.bits tc.bitstream 0 hw (by omega)
      refine ⟨hbs2, ?_⟩
      split
      · exact rev_lt_two_pow d tc.timecode hw
      · exact hbs2

theorem sampleStep_bounds (d : timecode_def) (tc : timecoder) (L R : Int)
    (hw : 1 ≤ d.bits) (h : code_bounds d tc) :
    code_bounds d (sampleStep d tc L R) := by
  unfold sampleStep
  dsimp only
  split
  · show code_bounds d (postUpdate (directionUpdate (halfOrCycleUpdate d _)) _)
    have hmid : code_bounds d (halfOrCycleUpdate d
        { tc with
          channel0 := (detect_zero_crossing tc.channel0 (L : ℚ) tc.zero_alpha).2
          channel1 := (detect_zero_crossing tc.channel1 (R : ℚ) tc.zero_alpha).2
          mono := (detect_zero_crossing tc.mono
            ((short_of_int (mono_input L R) : Int) : ℚ) tc.zero_alpha).2 }) := by
      unfold halfOrCycleUpdate
      split
      · exact h
      · exact cycleUpdate_bounds d _ hw h
    exact hmid
  · exact h

def runBlocks (d : timecode_def) : timecoder → List (Nat × List (Int × Int)) →
    timecoder
  | tc, [] => tc
  | tc, blk :: rest => runBlocks d (timecoder_submit d tc blk.1 blk.2) rest

theorem foldl_sampleStep_bounds (d : timecode_def) (hw : 1 ≤ d.bits) :
    ∀ (pcm : List (Int × Int)) (tc : timecoder), code_bounds d tc →
      code_bounds d (pcm.foldl (fun t fr => sampleStep d t fr.1 fr.2) tc) := by
  intro pcm
  induction pcm with
  | nil => intro tc h; exact h
  | cons fr rest ih =>
    intro tc h
    exact ih _ (sampleStep_bounds d tc fr.1 fr.2 hw h)

theorem submit_bounds (d : timecode_def) (hw : 1 ≤ d.bits) (tc : timecoder)
    (r : Nat) (pcm : List (Int × Int)) (h : code_bounds d tc) :
    code_bounds d (timecoder_submit d tc r pcm) := by
  unfold timecoder_submit
  exact foldl_sampleStep_bounds d hw pcm (set_sample_rate tc r) h

theorem runBlocks_bounds (d : timecode_def) (hw : 1 ≤ d.bits) :
    ∀ (blocks : List (Nat × List (Int × Int))) (tc : timecoder),
      code_bounds d tc → code_bounds d (runBlocks d tc blocks) := by
  intro blocks
  induction blocks with
  | nil => intro tc h; exact h
  | cons blk rest ih =>
    intro tc h
    exact ih _ (submit_bounds d hw tc blk.1 blk.2 h)

/-- C7: from `timecoder_init`, every sequence of `timecoder_submit` blocks
keeps `bitstream < 2 ^ bits` and `timecode < 2 ^ bits`; moreover every
single per-sample step (which performs the bit fusion and the LFSR step)
preserves the two bounds. -/
theorem C7_bitstream_width (d : timecode_def) (hw : 1 ≤ d.bits) :
    (∀ tc L R, code_bounds d tc → code_bounds d (sampleStep d tc L R)) ∧
    (∀ blocks : List (Nat × List (Int × Int)),
      code_bounds d (runBlocks d timecoder_init blocks)) := by
  constructor
  · intro tc L R h
    exact sampleStep_bounds d tc L R hw h
  · intro blocks
    apply runBlocks_bounds d hw blocks
    constructor
    · show (0 : Nat) < 2 ^ d.bits
      positivity
    · show (0 : Nat) < 2 ^ d.bits
      positivity

/-- Witness for C7 on `serato_2a` and a one-block submission. -/
theorem C7_bitstream_width_witness :
    1 ≤ serato_2a.bits ∧
      code_bounds serato_2a
        (runBlocks serato_2a timecoder_init [(44100, [(100, 200)])]) :=
  ⟨by decide, (C7_bitstream_width serato_2a (by decide)).2 [(44100, [(100, 200)])]⟩

/-! ### C8: the mono detector input -/

/-- The mono field of the decoder after a sample step is exactly the mono
channel updated by `detect_zero_crossing` on the narrowed sum
`short_of_int (mono_input L R)`. -/
theorem sampleStep_mono_detector (d : timecode_def) (tc : timecoder)
    (L R : Int) :
    (sampleStep d tc L R).mono =
      (detect_zero_crossing tc.mono
        ((short_of_int (mono_input L R) : Int) : ℚ) tc.zero_alpha).2 := by
  unfold sampleStep
  dsimp only
  split
  · unfold postUpdate directionUpdate halfOrCycleUpdate cycleUpdate
    dsimp only
    split
    · rfl
    · rfl
  · rfl

/-- C8 (amended): the value fed into the mono crossing detector — compared
against `zero ± ZERO_THRESHOLD` and used for the mono DC update — is the
sum `L + R` narrowed to `signed short` (the detector's parameter type); it
equals the exact sum precisely when `L + R` lies within the signed 16-bit
range. -/
theorem C8_mono_sum (L R : Int) (hlo : -32768 ≤ L + R) (hhi : L + R ≤ 32767) :
    short_of_int (mono_input L R) = L + R ∧
    (∀ (d : timecode_def) (tc : timecoder) (L2 R2 : Int),
      (sampleStep d tc L2 R2).mono =
        (detect_zero_crossing tc.mono
          ((short_of_int (mono_input L2 R2) : Int) : ℚ) tc.zero_alpha).2) := by
  constructor
  · unfold mono_input short_of_int
    omega
  · exact sampleStep_mono_detector

/-- Counterexample to C8 as stated: the mono sum `30000 + 30000 = 60000`
reaches the detector as the wrapped value `-5536`, not `60000` — so the
fresh detector (zero 0, negative) does not even swap, though the full sum
would have. -/
theorem C8_mono_sum_counterexample :
    mono_input 30000 30000 = 60000 ∧
    short_of_int (mono_input 30000 30000) = -5536 ∧
    short_of_int (mono_input 30000 30000) ≠ mono_input 30000 30000 ∧
    (sampleStep serato_2a timecoder_init 30000 30000).mono =
      (detect_zero_crossing timecoder_init.mono ((-5536 : Int) : ℚ)
        timecoder_init.zero_alpha).2 ∧
    (detect_zero_crossing timecoder_init.mono ((-5536 : Int) : ℚ)
      timecoder_init.zero_alpha).1 = false ∧
    (detect_zero_crossing timecoder_init.mono ((60000 : Int) : ℚ)
      timecoder_init.zero_alpha).1 = true := by
  refine ⟨by decide, by decide, by decide, ?_, ?_, ?_⟩ <;> with_unfolding_all rfl

/-- Witness for C8 on an in-range frame. -/
theorem C8_mono_sum_witness :
    (-32768 ≤ (100 : Int) + 100 ∧ (100 : Int) + 100 ≤ 32767) ∧
    short_of_int (mono_input 100 100) = 100 + 100 :=
  ⟨⟨by decide, by decide⟩,
    (C8_mono_sum 100 100 (by decide) (by decide)).1⟩

/-! ### C9: monitor plotting -/

theorem decayLoop_ge : ∀ (n : Nat) (pix : Nat → Nat) (p : Nat), n ≤ p →
    decayLoop n pix p = pix p := by
  intro n
  induction n with
  | zero => intro pix p _; rfl
  | succ n ih =>
    intro pix p hp
    show (if p = n then _ else decayLoop n pix p) = pix p
    rw [if_neg (by omega)]
    exact ih pix p (by omega)

theorem decayLoop_lt : ∀ (n : Nat) (pix : Nat → Nat) (p : Nat), p < n →
    decayLoop n pix p = pix p * 7 / 8 := by
  intro n
  induction n with
  | zero => intro pix p hp; omega
  | succ n ih =>
    intro pix p hp
    by_cases hpn : p = n
    · subst hpn
      show (if p = p then (if decayLoop p pix p ≠ 0 then decayLoop p pix p * 7 / 8
        else decayLoop p pix p) else _) = pix p * 7 / 8
      rw [if_pos rfl, decayLoop_ge p pix p (Nat.le_refl p)]
      split
      · rfl
      · omega
    · show (if p = n then _ else decayLoop n pix p) = pix p * 7 / 8
      rw [if_neg hpn]
      exact ih pix p (by omega)

/-- C9 (amended): each submitted frame bumps the monitor counter; a single
white pixel is plotted at the computed coordinates exactly when they fall
strictly inside the buffer, and a frame whose coordinates fall outside
writes no pixel at all; every `MONITOR_DECAY_EVERY` samples all pixels are
first scaled by `7/8`. -/
theorem C9_monitor_plot (m : monitor) (ref L R : Int) :
    ((monitorUpdate m ref L R).counter = m.counter + 1) ∧
    (monitorInBounds m.size (monitorCoord m.size ref L)
        (monitorCoord m.size ref R) = true →
      (monitorUpdate m ref L R).pix
        ((monitorCoord m.size ref R * (m.size : Int) +
          monitorCoord m.size ref L).toNat) = 0xff) ∧
    (monitorInBounds m.size (monitorCoord m.size ref L)
        (monitorCoord m.size ref R) = false →
      (monitorUpdate m ref L R).pix =
        (if (m.counter + 1) % MONITOR_DECAY_EVERY = 0
          then decayLoop (m.size * m.size) m.pix else m.pix)) ∧
    ((m.counter + 1) % MONITOR_DECAY_EVERY = 0 →
      ∀ p, p < m.size * m.size →
        decayLoop (m.size * m.size) m.pix p = m.pix p * 7 / 8) := by
  refine ⟨?_, ?_, ?_, fun _ p hp => decayLoop_lt _ m.pix p hp⟩
  · unfold monitorUpdate
    dsimp only
    split <;> rfl
  · intro hin
    unfold monitorUpdate
    dsimp only
    rw [if_pos hin]
    dsimp only
    rw [if_pos rfl]
  · intro hout
    unfold monitorUpdate
    dsimp only
    rw [if_neg (by rw [hout]; exact Bool.false_ne_true)]

/-- Counterexample to C9 as stated: a full-scale left sample at reference
level 1000 lands far outside the buffer, the guard rejects it, and no pixel
is written — the frame is dropped, not clamped. -/
theorem C9_monitor_plot_counterexample :
    monitorInBounds 100 (monitorCoord 100 1000 32767) (monitorCoord 100 1000 0)
      = false ∧
    monitorCoord 100 1000 32767 = 3326 ∧
    (monitorUpdate ⟨100, 0, fun _ => 0⟩ 1000 32767 0).pix = (fun _ => 0) := by
  refine ⟨?_, ?_, ?_⟩ <;> with_unfolding_all rfl

/-- Witness for C9 on an in-bounds frame. -/
theorem C9_monitor_plot_witness :
    monitorInBounds 100 (monitorCoord 100 1000 100) (monitorCoord 100 1000 0)
      = true ∧
    (monitorUpdate ⟨100, 0, fun _ => 0⟩ 1000 100 0).pix
      ((monitorCoord 100 1000 0 * (100 : Int) +
        monitorCoord 100 1000 100).toNat) = 0xff :=
  ⟨by with_unfolding_all rfl,
    (C9_monitor_plot ⟨100, 0, fun _ => 0⟩ 1000 100 0).2.1
      (by with_unfolding_all rfl)⟩

/-! ### C10: non-zero pitch window when crossings have been counted -/

/-- The operations a caller may interleave after `timecoder_init` that touch
the pitch counters. -/
inductive tc_op where
  | submit (rate : Nat) (pcm : List (Int × Int)) : tc_op
  | get_pitch : tc_op

def runOps (d : timecode_def) : timecoder → List tc_op → timecoder
  | tc, [] => tc
  | tc, tc_op.submit r pcm :: rest => runOps d (timecoder_submit d tc r pcm) rest
  | tc, tc_op.get_pitch :: rest => runOps d (timecoder_get_pitch d tc).2 rest

/-- True when the first frame of the first non-empty submitted block cannot
trip the mono detector of the freshly initialised decoder: its mono sum,
narrowed to `signed short` exactly as the detector receives it, stays
below `ZERO_THRESHOLD`. -/
def opsQuietStart : List tc_op → Bool
  | [] => true
  | tc_op.get_pitch :: rest => opsQuietStart rest
  | tc_op.submit _ [] :: rest => opsQuietStart rest
  | tc_op.submit _ (fr :: _) :: _ => decide (short_of_int (fr.1 + fr.2) < 128)

theorem halfOrCycleUpdate_pitch_ticker (d : timecode_def) (tc : timecoder) :
    (halfOrCycleUpdate d tc).pitch_ticker = tc.pitch_ticker := by
  unfold halfOrCycleUpdate cycleUpdate
  dsimp only
  split <;> rfl

theorem halfOrCycleUpdate_crossing_ticker (d : timecode_def) (tc : timecoder) :
    (halfOrCycleUpdate d tc).crossing_ticker = tc.crossing_ticker := by
  unfold halfOrCycleUpdate cycleUpdate
  dsimp only
  split <;> rfl

theorem sampleStep_crossing_ticker (d : timecode_def) (tc : timecoder)
    (L R : Int) : 1 ≤ (sampleStep d tc L R).crossing_ticker := by
  unfold sampleStep postUpdate
  dsimp only
  omega

theorem sampleStep_pitch_guard (d : timecode_def) (tc : timecoder) (L R : Int)
    (ht : 1 ≤ tc.crossing_ticker)
    (hJ : tc.crossings ≠ 0 → 0 < tc.pitch_ticker) :
    (sampleStep d tc L R).crossings ≠ 0 →
      0 < (sampleStep d tc L R).pitch_ticker := by
  unfold sampleStep
  dsimp only
  split
  · unfold postUpdate directionUpdate
    dsimp only
    rw [halfOrCycleUpdate_pitch_ticker, halfOrCycleUpdate_crossing_ticker]
    dsimp only
    intro _
    omega
  · unfold postUpdate
    dsimp only
    exact hJ

theorem get_pitch_pitch_guard (d : timecode_def) (tc : timecoder)
    (ht : 1 ≤ tc.crossing_ticker)
    (hJ : tc.crossings ≠ 0 → 0 < tc.pitch_ticker) :
    ((timecoder_get_pitch d tc).2.crossings ≠ 0 →
      0 < (timecoder_get_pitch d tc).2.pitch_ticker) ∧
    1 ≤ (timecoder_get_pitch d tc).2.crossing_ticker := by
  unfold timecoder_get_pitch
  split
  · exact ⟨hJ, ht⟩
  · dsimp only
    refine ⟨fun h => absurd rfl h, ht⟩

theorem foldl_pitch_guard (d : timecode_def) :
    ∀ (pcm : List (Int × Int)) (tc : timecoder), 1 ≤ tc.crossing_ticker →
      (tc.crossings ≠ 0 → 0 < tc.pitch_ticker) →
      ((pcm.foldl (fun t fr => sampleStep d t fr.1 fr.2) tc).crossings ≠ 0 →
        0 < (pcm.foldl (fun t fr => sampleStep d t fr.1 fr.2) tc).pitch_ticker)
      ∧ 1 ≤ (pcm.foldl (fun t fr => sampleStep d t fr.1 fr.2)
          tc).crossing_ticker := by
  intro pcm
  induction pcm with
  | nil => intro tc ht hJ; exact ⟨hJ, ht⟩
  | cons fr rest ih =>
    intro tc ht hJ
    exact ih (sampleStep d tc fr.1 fr.2)
      (sampleStep_crossing_ticker d tc fr.1 fr.2)
      (sampleStep_pitch_guard d tc fr.1 fr.2 ht hJ)

theorem runOps_pitch_guard (d : timecode_def) :
    ∀ (ops : List tc_op) (tc : timecoder), 1 ≤ tc.crossing_ticker →
      (tc.crossings ≠ 0 → 0 < tc.pitch_ticker) →
      ((runOps d tc ops).crossings ≠ 0 → 0 < (runOps d tc ops).pitch_ticker)
      ∧ 1 ≤ (runOps d tc ops).crossing_ticker := by
  intro ops
  induction ops with
  | nil => intro tc ht hJ; exact ⟨hJ, ht⟩
  | cons op rest ih =>
    intro tc ht hJ
    cases op with
    | submit r pcm =>
      show _ ∧ _
      have hsub := foldl_pitch_guard d pcm (set_sample_rate tc r) ht hJ
      exact ih (timecoder_submit d tc r pcm) hsub.2 hsub.1
    | get_pitch =>
      have hgp := get_pitch_pitch_guard d tc ht hJ
      exact ih (timecoder_get_pitch d tc).2 hgp.2 hgp.1

/-- A frame whose narrowed mono sum stays below the threshold cannot swap
the mono detector of a decoder whose mono channel is still in its initial
state. -/
theorem sampleStep_no_swap (d : timecode_def) (tc : timecoder) (L R : Int)
    (hpos : tc.mono.positive = false) (hz : tc.mono.zero = 0)
    (hg : short_of_int (L + R) < 128) :
    (sampleStep d tc L R).crossings = tc.crossings ∧
    (sampleStep d tc L R).pitch_ticker = tc.pitch_ticker ∧
    1 ≤ (sampleStep d tc L R).crossing_ticker := by
  have hvq : ((short_of_int (mono_input L R) : Int) : ℚ) <
      tc.mono.zero + ZERO_THRESHOLD := by
    rw [hz, mono_input, ZERO_THRESHOLD]
    norm_num
    exact_mod_cast hg
  have hdet : (detect_zero_crossing tc.mono
      ((short_of_int (mono_input L R) : Int) : ℚ) tc.zero_alpha).1 = false := by
    unfold detect_zero_crossing
    dsimp only
    rw [if_neg, if_neg]
    · intro hcon
      rw [hpos] at hcon
      exact Bool.false_ne_true hcon.2
    · intro hcon
      exact absurd hcon.1 (not_le.mpr hvq)
  unfold sampleStep
  dsimp only
  rw [if_neg (by rw [hdet]; exact Bool.false_ne_true)]
  unfold postUpdate
  dsimp only
  exact ⟨rfl, rfl, by omega⟩

theorem runOps_from_virgin (d : timecode_def) :
    ∀ (ops : List tc_op) (tc : timecoder), opsQuietStart ops = true →
      tc.crossings = 0 → tc.mono.positive = false → tc.mono.zero = 0 →
      (runOps d tc ops).crossings ≠ 0 → 0 < (runOps d tc ops).pitch_ticker := by
  intro ops
  induction ops with
  | nil =>
    intro tc _ hc _ _ h
    exact absurd hc h
  | cons op rest ih =>
    intro tc hq hc hpos hz
    cases op with
    | submit r pcm =>
      cases pcm with
      | nil =>
        show (runOps d (timecoder_submit d tc r []) rest).crossings ≠ 0 → _
        exact ih (set_sample_rate tc r) hq hc hpos hz
      | cons fr pcm =>
        have hg : short_of_int (fr.1 + fr.2) < 128 := of_decide_eq_true hq
        have hfirst := sampleStep_no_swap d (set_sample_rate tc r) fr.1 fr.2
          hpos hz hg
        have hJ1 : (sampleStep d (set_sample_rate tc r) fr.1 fr.2).crossings ≠ 0
            → 0 < (sampleStep d (set_sample_rate tc r) fr.1 fr.2).pitch_ticker
          := by
          rw [hfirst.1]
          intro h
          exact absurd hc h
        have hfold := foldl_pitch_guard d pcm
          (sampleStep d (set_sample_rate tc r) fr.1 fr.2) hfirst.2.2 hJ1
        exact (runOps_pitch_guard d rest (timecoder_submit d tc r (fr :: pcm))
          hfold.2 hfold.1).1
    | get_pitch =>
      show (runOps d (timecoder_get_pitch d tc).2 rest).crossings ≠ 0 →
        0 < (runOps d (timecoder_get_pitch d tc).2 rest).pitch_ticker
      have heq : (timecoder_get_pitch d tc).2 = tc := by
        unfold timecoder_get_pitch
        rw [if_pos hc]
      rw [heq]
      exact ih tc hq hc hpos hz

/-- C10 (amended): for every state reached from `timecoder_init` by submit
and get-pitch calls whose very first submitted frame does not itself trip
the mono detector (its mono sum, narrowed to `signed short` as the detector
receives it, stays below `ZERO_THRESHOLD`), `crossings ≠ 0` implies
`pitch_ticker > 0`, so the pitch division has a non-zero divisor.
(Without that proviso the property fails; see the counterexample.) -/
theorem C10_pitch_div_guard (d : timecode_def) (ops : List tc_op)
    (hq : opsQuietStart ops = true) :
    (runOps d timecoder_init ops).crossings ≠ 0 →
      0 < (runOps d timecoder_init ops).pitch_ticker :=
  runOps_from_virgin d ops timecoder_init hq rfl rfl rfl

/-- Counterexample to C10 as stated: a mono swap on the very first submitted
sample counts a crossing while the pitch window is still empty, so the state
`crossings = -1`, `pitch_ticker = 0` is reachable and
`timecoder_get_pitch` would divide by zero there. -/
theorem C10_pitch_div_guard_counterexample :
    (runOps serato_2a timecoder_init
      [tc_op.submit 1000 [(100, 100)]]).crossings = -1 ∧
    (runOps serato_2a timecoder_init
      [tc_op.submit 1000 [(100, 100)]]).pitch_ticker = 0 := by
  constructor <;> with_unfolding_all rfl

/-- Witness for C10 on a quiet-start trace. -/
theorem C10_pitch_div_guard_witness :
    opsQuietStart [tc_op.submit 1000 [(0, 0)]] = true ∧
    ((runOps serato_2a timecoder_init
        [tc_op.submit 1000 [(0, 0)]]).crossings ≠ 0 →
      0 < (runOps serato_2a timecoder_init
        [tc_op.submit 1000 [(0, 0)]]).pitch_ticker) :=
  ⟨by decide, C10_pitch_div_guard serato_2a [tc_op.submit 1000 [(0, 0)]]
    (by decide)⟩

/-! ### C4: lookup table size, and C5: setup error returns -/

/-- Counterexample to C4 as stated: the code allocates `2 << bits` slots,
which for `serato_2a` (20 bits) is `2 ^ 21 = 2097152`, not `2 ^ 20`; the
malloc request is likewise `2 ^ 21` indices, twice the claimed footprint
bound. -/
theorem C4_lookup_size_counterexample :
    lookupSlots serato_2a ≠ 2 ^ serato_2a.bits ∧
    lookupSlots serato_2a = 2097152 ∧
    (2 : Nat) ^ serato_2a.bits = 1048576 ∧
    lookupMemBytes serato_2a = 2097152 * sizeof_signed_index ∧
    ¬lookupMemBytes serato_2a ≤ 2 ^ serato_2a.bits * sizeof_signed_index := by
  refine ⟨by decide, by decide, by decide, by decide, by decide⟩

/-- C4 (amended): the lookup table has `2 << bits = 2 ^ (bits + 1)` entries
(one slot per code word plus as many again), its malloc footprint is
`2 ^ (bits + 1)` indices, and every slot is initialised to the sentinel
`-1` before the fill loop runs. -/
theorem C4_lookup_size (d : timecode_def) (garbage : Nat → Int) :
    lookupSlots d = 2 ^ (d.bits + 1) ∧
    lookupMemBytes d = 2 ^ (d.bits + 1) * sizeof_signed_index ∧
    (∀ e, e < lookupSlots d → initLoop (lookupSlots d) garbage e = -1) := by
  refine ⟨lookupSlots_eq d, ?_, fun e he => initLoop_lt _ garbage e he⟩
  unfold lookupMemBytes
  rw [lookupSlots_eq d]

/-- Witness for C4 at slot 0 of the `serato_2a` table. -/
theorem C4_lookup_size_witness :
    0 < lookupSlots serato_2a ∧
    initLoop (lookupSlots serato_2a) (fun _ => 0) 0 = -1 :=
  ⟨by decide,
    (C4_lookup_size serato_2a (fun _ => 0)).2.2 0 (by decide)⟩

/-- The registry search at the top of `timecoder_build_lookup`
(`while(def->name) { if(!strcmp(...)) break; def++; }`). -/
def timecode_def_find : String → List timecode_def → Option timecode_def
  | _, [] => none
  | s, d :: rest => if d.name = s then some d else timecode_def_find s rest

/-- The return code of `timecoder_build_lookup`: `-1` for an unknown name,
`0` (!) when malloc fails, `-1` when the sequence wraps, `0` on success.
The `allocOk` parameter models whether malloc succeeds. -/
def timecoder_build_lookup_ret (name : String) (allocOk : Bool)
    (garbage : Nat → Int) : Int :=
  match timecode_def_find name timecode_def_list with
  | none => -1
  | some d =>
    if allocOk then
      match buildFrom d d.length d.seed 0 (initLoop (lookupSlots d) garbage)
      with
      | none => -1
      | some _ => 0
    else 0

/-- C5 evaluated at the failing input: when the timecode name resolves but
the lookup allocation fails, `timecoder_build_lookup` returns `0` — the
same value it returns on success — instead of an error; the unknown-name
path does return a distinct error value `-1`. -/
theorem C5_setup_error_returns :
    timecoder_build_lookup_ret "serato_2a" false (fun _ => 0) = 0 ∧
    timecoder_build_lookup_ret "no_such_timecode" true (fun _ => 0) = -1 ∧
    (0 : Int) ≠ -1 := by
  refine ⟨rfl, rfl, by decide⟩
